import Mathlib

/-!
Verification development for the `pkg` utilities module of k8s-manifest-kit.

Shallow embedding of:
  * `util/maps` — `DeepCloneValue`, `DeepCloneMap`, `DeepMerge` over JSON-like
    `map[string]any` trees (value-level model `GoVal`, plus an allocation-id
    model `AVal` used to reason about sharing of mutable backing storage);
  * `util/cache` — the generic TTL cache `defaultCache[T]` (`New`, `Get`,
    `Set`, `Sync`), its functional options, `DefaultKeyFunc`, and the
    `renderCache` wrapper that deep-clones on the get/set boundary.

Go maps are embedded as association lists with string keys (enumeration order
carries no semantic meaning in the source); `time.Time` / `time.Duration` are
embedded as `Int` nanosecond counts; the machine distinction between `int` and
`int64` never matters for the verified properties, so both carry `Int`.
`float64` payloads are carried as opaque bit patterns (`Int`): the code moves
them but never computes with them.
-/

/-- Value-level model of a Go `any` holding a JSON-like tree, mirroring the
type cases distinguished by `DeepCloneValue` / `DeepMerge`:
`nil`, scalars, `map[string]any` (a `nil` map is distinct from an empty one),
`[]any`, the enumerated typed slices, any other slice kind (the reflection
fallback of `DeepCloneValue`, elements modelled as values), and an opaque
non-slice composite (identified only by a tag, standing for its pointer
identity, since such values are passed through unchanged). -/
inductive GoVal where
  | vnil
  | vstr (s : String)
  | vint (n : Int)
  | vfloat (bits : Int)
  | vbool (b : Bool)
  | vmapNil
  | vmap (es : List (String × GoVal))
  | vslice (es : List GoVal)
  | vsliceStr (xs : List String)
  | vsliceInt (xs : List Int)
  | vsliceInt64 (xs : List Int)
  | vsliceFloat (xs : List Int)
  | vsliceBool (xs : List Bool)
  | vsliceOther (es : List GoVal)
  | vptr (tag : Nat)

/-- Go map indexing `m[k]` on the association-list embedding of a
string-keyed Go map (used both for `map[string]any` trees and for the
cache's entry store). -/
def lookupKey {α : Type} (k : String) : List (String × α) → Option α
  | [] => none
  | (k', v) :: rest => if k' = k then some v else lookupKey k rest

/-- The embedding of a (possibly nil) Go `map[string]any`:
`none` is a nil map, `some es` a non-nil map with entries `es`. -/
abbrev GoMap := Option (List (String × GoVal))

mutual
/-- `DeepCloneValue` from `util/maps/clone.go`: deep copy of a single value.
Typed scalar slices are flat buffer copies (same payload), unrecognized slice
kinds are copied one level without recursing into elements, and any non-slice
default value is returned as-is. -/
def DeepCloneValue : GoVal → GoVal
  | .vnil => .vnil
  | .vstr s => .vstr s
  | .vint n => .vint n
  | .vfloat x => .vfloat x
  | .vbool b => .vbool b
  | .vmapNil => .vmapNil
  | .vmap es => .vmap (deepCloneEntries es)
  | .vslice es => .vslice (deepCloneElems es)
  | .vsliceStr xs => .vsliceStr xs
  | .vsliceInt xs => .vsliceInt xs
  | .vsliceInt64 xs => .vsliceInt64 xs
  | .vsliceFloat xs => .vsliceFloat xs
  | .vsliceBool xs => .vsliceBool xs
  | .vsliceOther es => .vsliceOther es
  | .vptr t => .vptr t

/-- The entry loop of `DeepCloneMap`: every value recursively cloned. -/
def deepCloneEntries : List (String × GoVal) → List (String × GoVal)
  | [] => []
  | (k, v) :: rest => (k, DeepCloneValue v) :: deepCloneEntries rest

/-- The element loop of the `[]any` case of `DeepCloneValue`. -/
def deepCloneElems : List GoVal → List GoVal
  | [] => []
  | v :: rest => DeepCloneValue v :: deepCloneElems rest
end

/-- `DeepCloneMap` from `util/maps/clone.go`: nil map clones to nil,
otherwise a new map with every value recursively cloned. -/
def DeepCloneMap : GoMap → GoMap
  | none => none
  | some es => some (deepCloneEntries es)

/-- The Go type assertion `value.(map[string]any)`: a nil map and a non-nil
map both assert successfully as a mapping; everything else does not. -/
def asMapGo : GoVal → Option GoMap
  | .vmapNil => some none
  | .vmap es => some (some es)
  | _ => none

/-- The overlay loop of `DeepMerge`: overlay entries whose key is absent
from the base are appended, deep-cloned. -/
def mergeRest (b : List (String × GoVal)) : List (String × GoVal) → List (String × GoVal)
  | [] => []
  | (k, ov) :: rest =>
    if (lookupKey k b).isNone then (k, DeepCloneValue ov) :: mergeRest b rest
    else mergeRest b rest

mutual
/-- `DeepMerge` from `util/merge.go`: both inputs nil yields a fresh empty
map, exactly one nil yields a deep clone of the other, otherwise the result
is built over the union of keys (base entries first, then overlay-only
entries).  The result is always a non-nil map, hence modelled as a bare
entry list. -/
def DeepMerge : GoMap → GoMap → List (String × GoVal)
  | none, none => []
  | none, some o => deepCloneEntries o
  | some b, none => deepCloneEntries b
  | some b, some o => mergeBase b o ++ mergeRest b o

/-- The base-map loop of `DeepMerge`: each base entry keeps its key and gets
the value computed by `mergeEntryValue` from the base value and the overlay's
(optional) value at that key. -/
def mergeBase : List (String × GoVal) → List (String × GoVal) → List (String × GoVal)
  | [], _ => []
  | (k, bv) :: rest, o => (k, mergeEntryValue bv (lookupKey k o)) :: mergeBase rest o

/-- The body of the base loop of `DeepMerge`: when the overlay also has the
key (`willOverride`) and both values type-assert as `map[string]any`
(a nil map asserts successfully), the value is the recursive merge; when the
overlay has the key otherwise, the deep-cloned overlay value wins; when the
key is base-only, the base value is deep-cloned. -/
def mergeEntryValue : GoVal → Option GoVal → GoVal
  | bv, none => DeepCloneValue bv
  | bv, some ov =>
    match bv, ov with
    | .vmapNil, .vmapNil => .vmap (DeepMerge none none)
    | .vmapNil, .vmap oes => .vmap (DeepMerge none (some oes))
    | .vmap bes, .vmapNil => .vmap (DeepMerge (some bes) none)
    | .vmap bes, .vmap oes => .vmap (DeepMerge (some bes) (some oes))
    | _, _ => DeepCloneValue ov
end

mutual
/-- Modelled from the spec: `k8s.io/apimachinery/pkg/util/dump.ForHash`, the
reflection-based fallback of `DefaultKeyFunc`, is an external dependency and
is modelled as a deterministic structural serialization — "everything else
reduces to a stable structural representation (same logical value ⇒ same
string across calls)". -/
def forHashVal : GoVal → String
  | .vnil => "nil"
  | .vstr s => "str(" ++ s ++ ")"
  | .vint n => "int(" ++ toString n ++ ")"
  | .vfloat x => "float(" ++ toString x ++ ")"
  | .vbool b => "bool(" ++ toString b ++ ")"
  | .vmapNil => "mapnil"
  | .vmap es => "map(" ++ forHashEntries es ++ ")"
  | .vslice es => "slice(" ++ forHashElems es ++ ")"
  | .vsliceStr xs => "strs(" ++ String.intercalate "," xs ++ ")"
  | .vsliceInt xs => "ints(" ++ String.intercalate "," (xs.map toString) ++ ")"
  | .vsliceInt64 xs => "int64s(" ++ String.intercalate "," (xs.map toString) ++ ")"
  | .vsliceFloat xs => "floats(" ++ String.intercalate "," (xs.map toString) ++ ")"
  | .vsliceBool xs => "bools(" ++ String.intercalate "," (xs.map toString) ++ ")"
  | .vsliceOther es => "others(" ++ forHashElems es ++ ")"
  | .vptr t => "opaque(" ++ toString t ++ ")"

/-- Serialization of map entries for `forHashVal`. -/
def forHashEntries : List (String × GoVal) → String
  | [] => ""
  | (k, v) :: rest => k ++ ":" ++ forHashVal v ++ ";" ++ forHashEntries rest

/-- Serialization of slice elements for `forHashVal`. -/
def forHashElems : List GoVal → String
  | [] => ""
  | v :: rest => forHashVal v ++ ";" ++ forHashElems rest
end

/-- The dynamic type of a Go `any` used as a cache key, mirroring the cases
distinguished by `DefaultKeyFunc`: `string`, `[]byte`, `int`, `int64`, and
any other value (carried as a JSON-like tree). -/
inductive GoKey where
  | kstr (s : String)
  | kbytes (bs : List Char)
  | kint (n : Int)
  | kint64 (n : Int)
  | kother (v : GoVal)

/-- `DefaultKeyFunc` from `util/cache/key.go`: strings pass through verbatim,
byte slices convert directly (`string(k)`), `int`/`int64` render as decimal
text (`strconv.Itoa` / `strconv.FormatInt`), and anything else goes through
`dump.ForHash`. -/
def DefaultKeyFunc : GoKey → String
  | .kstr s => s
  | .kbytes bs => String.mk bs
  | .kint n => toString n
  | .kint64 n => toString n
  | .kother v => forHashVal v

/-- Cache entry from `util/cache/cache.go`: a stored value and its absolute
expiration instant (`time.Time` as a nanosecond count). -/
structure entry (T : Type) where
  value : T
  expiration : Int
deriving DecidableEq

/-- `defaultCache[T]` from `util/cache/cache.go`: the entry store keyed by
normalized strings, the configured TTL (nanoseconds) and the key normalizer.
The `sync.RWMutex` only serializes access and is not part of the
single-threaded state. -/
structure defaultCache (T : Type) where
  entries : List (String × entry T)
  ttl : Int
  keyFunc : GoKey → String

/-- Go map assignment `m[k] = e` on the association-list embedding: any
previous binding of the key is replaced. -/
def setEntryList {T : Type} (es : List (String × entry T)) (k : String) (e : entry T) :
    List (String × entry T) :=
  es.filter (fun p => p.1 ≠ k) ++ [(k, e)]

/-- `defaultCache.Get`: normalizes the key, looks the entry up; an absent
entry, or one with `time.Now().After(expiration)` (strictly later `now`), is
reported as a miss.  The pair's second component is the store after the call:
`Get` only ever reads, so it is returned unchanged. -/
def defaultCache.Get {T : Type} (c : defaultCache T) (now : Int) (key : GoKey) :
    Option T × defaultCache T :=
  match lookupKey (c.keyFunc key) c.entries with
  | none => (none, c)
  | some e => if now > e.expiration then (none, c) else (some e.value, c)

/-- `defaultCache.Set`: normalizes the key and inserts or overwrites the
entry with expiration `now + ttl`. -/
def defaultCache.Set {T : Type} (c : defaultCache T) (now : Int) (key : GoKey) (v : T) :
    defaultCache T :=
  { c with entries := setEntryList c.entries (c.keyFunc key) ⟨v, now + c.ttl⟩ }

/-- `defaultCache.Sync`: physically deletes every entry with
`now.After(expiration)`, keeping exactly those with `expiration ≥ now`. -/
def defaultCache.Sync {T : Type} (c : defaultCache T) (now : Int) : defaultCache T :=
  { c with entries := c.entries.filter (fun p => !decide (p.2.expiration < now)) }

/-- `defaultTTL` from `util/cache/cache.go`: 5 minutes, in nanoseconds. -/
def defaultTTL : Int := 300000000000

/-- `Options` from `util/cache/cache_option.go`.  `KeyFunc` is a nilable Go
function value, hence an `Option`. -/
structure Options where
  TTL : Int
  KeyFunc : Option (GoKey → String)

/-- `Options.ApplyTo` from `util/cache/cache_option.go`: copies only a
positive TTL and only a non-nil key function onto the target. -/
def Options.ApplyTo (opts : Options) (target : Options) : Options :=
  let t1 := if opts.TTL > 0 then { target with TTL := opts.TTL } else target
  match opts.KeyFunc with
  | some f => { t1 with KeyFunc := some f }
  | none => t1

/-- `WithTTL`: functional option setting the TTL unconditionally. -/
def WithTTL (ttl : Int) : Options → Options :=
  fun opts => { opts with TTL := ttl }

/-- `WithKeyFunc`: functional option setting the key normalizer
unconditionally (the supplied Go function value may be nil). -/
def WithKeyFunc (fn : Option (GoKey → String)) : Options → Options :=
  fun opts => { opts with KeyFunc := fn }

/-- The option-application loop of `New`: Go `Option` values are arbitrary
`ApplyTo` implementations, modelled as functions on `Options`. -/
def applyOptions (opts : List (Options → Options)) : Options :=
  opts.foldl (fun acc f => f acc) { TTL := defaultTTL, KeyFunc := some DefaultKeyFunc }

/-- `New` from `util/cache/cache.go`: fills defaults, applies the options in
sequence, then clamps a non-positive TTL back to the default and replaces a
nil key function by `DefaultKeyFunc`.  Construction always succeeds. -/
def New {T : Type} (opts : List (Options → Options)) : defaultCache T :=
  let options := applyOptions opts
  let options := if options.TTL ≤ 0 then { options with TTL := defaultTTL } else options
  let kf := match options.KeyFunc with
            | none => DefaultKeyFunc
            | some f => f
  { entries := [], ttl := options.TTL, keyFunc := kf }

/-- `renderCache` from `util/cache/cache.go`: wraps an inner cache holding
slices of unstructured objects.  The element type is abstract (`U`), and a
stored Go slice is `Option (List U)` — `none` is a nil slice, distinct from
an empty one. -/
structure renderCache (U : Type) where
  cache : defaultCache (Option (List U))

/-- `renderCache.Get`: delegates to the inner cache; a miss stays a miss, a
stored nil slice is returned as `(nil, true)`, and a stored non-nil slice is
returned as a fresh slice whose elements are each `obj.DeepCopy()`-ed (the
deep-copy operation of the opaque element type is the parameter `dc`). -/
def renderCache.Get {U : Type} (dc : U → U) (r : renderCache U) (now : Int) (key : GoKey) :
    Option (Option (List U)) :=
  match (r.cache.Get now key).1 with
  | none => none
  | some none => some none
  | some (some xs) => some (some (xs.map dc))

/-- `renderCache.Set`: an explicit nil slice is stored as nil; a non-nil
slice is stored as a fresh slice of `DeepCopy`-ed elements. -/
def renderCache.Set {U : Type} (dc : U → U) (r : renderCache U) (now : Int) (key : GoKey)
    (value : Option (List U)) : renderCache U :=
  match value with
  | none => { cache := r.cache.Set now key none }
  | some xs => { cache := r.cache.Set now key (some (xs.map dc)) }

/-- `renderCache.Sync`: delegates unchanged. -/
def renderCache.Sync {U : Type} (r : renderCache U) (now : Int) : renderCache U :=
  { cache := r.cache.Sync now }

/-- Allocation-level model of a Go JSON-like value: same shape as `GoVal`,
but every mutable backing container (map, slice of any kind) carries the
allocation identity of its backing storage, and an opaque composite carries
the identity of whatever mutable state it embeds.  Two occurrences with the
same id share mutable storage: a write through one is observable through the
other. -/
inductive AVal where
  | anil
  | astr (s : String)
  | aint (n : Int)
  | afloat (bits : Int)
  | abool (b : Bool)
  | amapNil
  | amap (id : Nat) (es : List (String × AVal))
  | aslice (id : Nat) (es : List AVal)
  | asliceStr (id : Nat) (xs : List String)
  | asliceInt (id : Nat) (xs : List Int)
  | asliceInt64 (id : Nat) (xs : List Int)
  | asliceFloat (id : Nat) (xs : List Int)
  | asliceBool (id : Nat) (xs : List Bool)
  | asliceOther (id : Nat) (es : List AVal)
  | aptr (id : Nat)

mutual
/-- Forgetting allocation identities: the value-level content of an `AVal`.
Two `AVal`s with the same `strip` are structurally equal Go values. -/
def strip : AVal → GoVal
  | .anil => .vnil
  | .astr s => .vstr s
  | .aint n => .vint n
  | .afloat x => .vfloat x
  | .abool b => .vbool b
  | .amapNil => .vmapNil
  | .amap _ es => .vmap (stripEntries es)
  | .aslice _ es => .vslice (stripElems es)
  | .asliceStr _ xs => .vsliceStr xs
  | .asliceInt _ xs => .vsliceInt xs
  | .asliceInt64 _ xs => .vsliceInt64 xs
  | .asliceFloat _ xs => .vsliceFloat xs
  | .asliceBool _ xs => .vsliceBool xs
  | .asliceOther _ es => .vsliceOther (stripElems es)
  | .aptr t => .vptr t

/-- `strip` on map entries. -/
def stripEntries : List (String × AVal) → List (String × GoVal)
  | [] => []
  | (k, v) :: rest => (k, strip v) :: stripEntries rest

/-- `strip` on slice elements. -/
def stripElems : List AVal → List GoVal
  | [] => []
  | v :: rest => strip v :: stripElems rest
end

mutual
/-- All allocation identities reachable in a value: the ids of every mutable
backing container (and of every opaque composite's embedded state). -/
def ids : AVal → List Nat
  | .anil | .astr _ | .aint _ | .afloat _ | .abool _ | .amapNil => []
  | .amap i es => i :: idsEntries es
  | .aslice i es => i :: idsElems es
  | .asliceStr i _ | .asliceInt i _ | .asliceInt64 i _
  | .asliceFloat i _ | .asliceBool i _ => [i]
  | .asliceOther i es => i :: idsElems es
  | .aptr i => [i]

/-- `ids` over map entries. -/
def idsEntries : List (String × AVal) → List Nat
  | [] => []
  | (_, v) :: rest => ids v ++ idsEntries rest

/-- `ids` over slice elements. -/
def idsElems : List AVal → List Nat
  | [] => []
  | v :: rest => ids v ++ idsElems rest
end

mutual
/-- The recognized shapes of C4: trees built solely from scalars, nil,
`map[string]any`, `[]any` and the enumerated typed slices — no
reflection-fallback slice kinds and no opaque composites. -/
def recognized : AVal → Bool
  | .anil | .astr _ | .aint _ | .afloat _ | .abool _ | .amapNil => true
  | .amap _ es => recognizedEntries es
  | .aslice _ es => recognizedElems es
  | .asliceStr _ _ | .asliceInt _ _ | .asliceInt64 _ _
  | .asliceFloat _ _ | .asliceBool _ _ => true
  | .asliceOther _ _ => false
  | .aptr _ => false

/-- `recognized` over map entries. -/
def recognizedEntries : List (String × AVal) → Bool
  | [] => true
  | (_, v) :: rest => recognized v && recognizedEntries rest

/-- `recognized` over slice elements. -/
def recognizedElems : List AVal → Bool
  | [] => true
  | v :: rest => recognized v && recognizedElems rest
end

mutual
/-- `DeepCloneValue` at the allocation level: the second argument is a fresh
allocation-id supply (every id ≥ the supply is unallocated); the result pair
is the cloned value and the advanced supply.  Maps, `[]any` slices and the
enumerated typed slices allocate fresh backing storage; the reflection
fallback allocates a fresh slice but re-uses the element values; the default
branch returns the value (and its identity) untouched. -/
def acloneValue : AVal → Nat → AVal × Nat
  | .anil, s => (.anil, s)
  | .astr a, s => (.astr a, s)
  | .aint n, s => (.aint n, s)
  | .afloat x, s => (.afloat x, s)
  | .abool b, s => (.abool b, s)
  | .amapNil, s => (.amapNil, s)
  | .amap _ es, s =>
      let (es', s') := acloneEntries es (s + 1)
      (.amap s es', s')
  | .aslice _ es, s =>
      let (es', s') := acloneElems es (s + 1)
      (.aslice s es', s')
  | .asliceStr _ xs, s => (.asliceStr s xs, s + 1)
  | .asliceInt _ xs, s => (.asliceInt s xs, s + 1)
  | .asliceInt64 _ xs, s => (.asliceInt64 s xs, s + 1)
  | .asliceFloat _ xs, s => (.asliceFloat s xs, s + 1)
  | .asliceBool _ xs, s => (.asliceBool s xs, s + 1)
  | .asliceOther _ es, s => (.asliceOther s es, s + 1)
  | .aptr i, s => (.aptr i, s)

/-- The entry loop of `DeepCloneMap` at the allocation level. -/
def acloneEntries : List (String × AVal) → Nat → List (String × AVal) × Nat
  | [], s => ([], s)
  | (k, v) :: rest, s =>
      let (v', s1) := acloneValue v s
      let (rest', s2) := acloneEntries rest s1
      ((k, v') :: rest', s2)

/-- The `[]any` element loop at the allocation level. -/
def acloneElems : List AVal → Nat → List AVal × Nat
  | [], s => ([], s)
  | v :: rest, s =>
      let (v', s1) := acloneValue v s
      let (rest', s2) := acloneElems rest s1
      (v' :: rest', s2)
end

/-- The embedding of a (possibly nil) Go `map[string]any` argument at the
allocation level: `none` is a nil map, `some (i, es)` a non-nil map whose
backing storage has identity `i`. -/
abbrev AMapA := Option (Nat × List (String × AVal))

/-- The allocation identities reachable from a (possibly nil) map. -/
def idsM : AMapA → List Nat
  | none => []
  | some (i, es) => i :: idsEntries es

/-- `recognized` for a (possibly nil) map argument. -/
def recognizedM : AMapA → Bool
  | none => true
  | some (_, es) => recognizedEntries es

/-- The values the default branch of `DeepCloneValue` returns by identity:
scalars and non-slice opaque composites. -/
def identityCloned : AVal → Bool
  | .astr _ | .aint _ | .afloat _ | .abool _ | .aptr _ => true
  | _ => false

/- The two `sizeOf` facts below are proof support for the termination of
the allocation-level merge that follows; all other theorems come after the
definitions. -/

theorem list_sizeOf_pos {α : Type} [SizeOf α] (l : List α) : 0 < sizeOf l := by
  cases l <;> simp

theorem sizeOf_lookupKey_le {α : Type} [SizeOf α] (k : String) (l : List (String × α)) :
    sizeOf (lookupKey k l) ≤ sizeOf l := by
  induction l with
  | nil => simp [lookupKey]
  | cons p rest ih =>
    obtain ⟨k', v⟩ := p
    simp only [lookupKey]
    by_cases hk : k' = k
    · simp [hk]
      omega
    · simp [hk]
      omega

/-- The overlay loop of `DeepMerge` at the allocation level. -/
def amergeRest (b : List (String × AVal)) : List (String × AVal) → Nat →
    List (String × AVal) × Nat
  | [], s => ([], s)
  | (k, ov) :: rest, s =>
    if (lookupKey k b).isNone then
      let (v', s1) := acloneValue ov s
      let (rest', s2) := amergeRest b rest s1
      ((k, v') :: rest', s2)
    else amergeRest b rest s

mutual
/-- `DeepMerge` at the allocation level: the result map's backing storage is
always freshly allocated (it receives the current supply id `s`); values are
produced by recursive merging or by allocation-level deep cloning, exactly
as in `DeepMerge`. -/
def amerge : AMapA → AMapA → Nat → (Nat × List (String × AVal)) × Nat
  | none, none, s => ((s, []), s + 1)
  | none, some (_, o), s =>
      let (es', s') := acloneEntries o (s + 1)
      ((s, es'), s')
  | some (_, b), none, s =>
      let (es', s') := acloneEntries b (s + 1)
      ((s, es'), s')
  | some (_, b), some (_, o), s =>
      let (es1, s1) := amergeBase b o (s + 1)
      let (es2, s2) := amergeRest b o s1
      ((s, es1 ++ es2), s2)
termination_by b o _ => sizeOf b + sizeOf o
decreasing_by
  all_goals simp_wf
  all_goals omega

/-- The base-map loop of `DeepMerge` at the allocation level. -/
def amergeBase : List (String × AVal) → List (String × AVal) → Nat →
    List (String × AVal) × Nat
  | [], _, s => ([], s)
  | (k, bv) :: rest, o, s =>
      let (v', s1) := amergeEntryValue bv (lookupKey k o) s
      let (rest', s2) := amergeBase rest o s1
      ((k, v') :: rest', s2)
termination_by l o _ => sizeOf l + sizeOf o
decreasing_by
  all_goals simp_wf
  all_goals first
  | omega
  | (have hlk := sizeOf_lookupKey_le k o
     have hr := list_sizeOf_pos rest
     omega)

/-- The base-loop body of `DeepMerge` at the allocation level. -/
def amergeEntryValue : AVal → Option AVal → Nat → AVal × Nat
  | bv, none, s => acloneValue bv s
  | bv, some ov, s =>
      match bv, ov with
      | .amapNil, .amapNil =>
          let (m, s') := amerge none none s
          (.amap m.1 m.2, s')
      | .amapNil, .amap oi oes =>
          let (m, s') := amerge none (some (oi, oes)) s
          (.amap m.1 m.2, s')
      | .amap bi bes, .amapNil =>
          let (m, s') := amerge (some (bi, bes)) none s
          (.amap m.1 m.2, s')
      | .amap bi bes, .amap oi oes =>
          let (m, s') := amerge (some (bi, bes)) (some (oi, oes)) s
          (.amap m.1 m.2, s')
      | _, _ => acloneValue ov s
termination_by bv ovOpt _ => sizeOf bv + sizeOf ovOpt + 2
decreasing_by
  all_goals simp_wf
  all_goals omega
end

theorem lookupKey_append_some {α : Type} {k : String} {xs ys : List (String × α)} {v : α}
    (h : lookupKey k xs = some v) : lookupKey k (xs ++ ys) = some v := by
  induction xs with
  | nil => simp [lookupKey] at h
  | cons p rest ih =>
    obtain ⟨k', v'⟩ := p
    simp only [lookupKey, List.cons_append] at h ⊢
    by_cases hk : k' = k
    · simpa [hk] using h
    · simp [hk] at h ⊢
      exact ih h

theorem lookupKey_append_none {α : Type} {k : String} {xs ys : List (String × α)}
    (h : lookupKey k xs = none) : lookupKey k (xs ++ ys) = lookupKey k ys := by
  induction xs with
  | nil => simp [lookupKey]
  | cons p rest ih =>
    obtain ⟨k', v'⟩ := p
    simp only [lookupKey, List.cons_append] at h ⊢
    by_cases hk : k' = k
    · simp [hk] at h
    · simp [hk] at h ⊢
      exact ih h

theorem lookupKey_mergeBase (k : String) (b o : List (String × GoVal)) :
    lookupKey k (mergeBase b o) =
      (lookupKey k b).map (fun bv => mergeEntryValue bv (lookupKey k o)) := by
  induction b with
  | nil => simp [mergeBase, lookupKey]
  | cons p rest ih =>
    obtain ⟨k', bv⟩ := p
    simp only [mergeBase, lookupKey]
    by_cases hk : k' = k
    · simp [hk]
    · simp [hk, ih]

theorem lookupKey_mergeRest (k : String) (b o : List (String × GoVal)) :
    lookupKey k (mergeRest b o) =
      if (lookupKey k b).isNone then (lookupKey k o).map DeepCloneValue else none := by
  induction o with
  | nil => simp [mergeRest, lookupKey]
  | cons p rest ih =>
    obtain ⟨k', ov⟩ := p
    simp only [mergeRest]
    by_cases hb : (lookupKey k' b).isNone
    · simp only [hb, if_pos]
      simp only [lookupKey]
      by_cases hk : k' = k
      · subst hk
        simp [hb]
      · simp [hk, ih]
    · simp only [hb, if_neg, Bool.false_eq_true, not_false_eq_true]
      by_cases hk : k' = k
      · subst hk
        simp [ih, hb, lookupKey]
      · simp [lookupKey, hk, ih]

theorem lookupKey_DeepMerge (k : String) (b o : List (String × GoVal)) :
    lookupKey k (DeepMerge (some b) (some o)) =
      match lookupKey k b with
      | some bv => some (mergeEntryValue bv (lookupKey k o))
      | none => (lookupKey k o).map DeepCloneValue := by
  have hmerge : DeepMerge (some b) (some o) = mergeBase b o ++ mergeRest b o := by
    simp [DeepMerge]
  rw [hmerge]
  cases hb : lookupKey k b with
  | some bv =>
    have h1 : lookupKey k (mergeBase b o) = some (mergeEntryValue bv (lookupKey k o)) := by
      rw [lookupKey_mergeBase, hb]; rfl
    simp [lookupKey_append_some h1]
  | none =>
    have h1 : lookupKey k (mergeBase b o) = none := by
      rw [lookupKey_mergeBase, hb]; rfl
    rw [lookupKey_append_none h1, lookupKey_mergeRest, hb]
    simp

theorem mergeEntryValue_bothMaps {bv ov : GoVal} {bm om : GoMap}
    (hb : asMapGo bv = some bm) (ho : asMapGo ov = some om) :
    mergeEntryValue bv (some ov) = .vmap (DeepMerge bm om) := by
  cases bv <;> simp only [asMapGo, Option.some.injEq, reduceCtorEq] at hb <;>
  cases ov <;> simp only [asMapGo, Option.some.injEq, reduceCtorEq] at ho <;>
  subst hb <;> subst ho <;> simp [mergeEntryValue]

theorem mergeEntryValue_notBothMaps {bv ov : GoVal}
    (h : asMapGo bv = none ∨ asMapGo ov = none) :
    mergeEntryValue bv (some ov) = DeepCloneValue ov := by
  cases bv <;> cases ov <;> simp_all [asMapGo, mergeEntryValue]

/-- C5: for every pair of non-nil maps, `DeepMerge` builds its result over
the union of base and overlay keys: a key present in both whose values are
both mappings maps to the recursive merge; present in both otherwise (slices,
scalars, type mismatches — so slices are replaced wholesale, never merged
element-wise) maps to the deep-cloned overlay value; a key present in only
one input maps to a deep clone of that input's value; a key present in
neither is absent from the result. -/
theorem c5_deep_merge_union_semantics (b o : List (String × GoVal)) (k : String) :
    (∀ bv ov bm om, lookupKey k b = some bv → lookupKey k o = some ov →
       asMapGo bv = some bm → asMapGo ov = some om →
       lookupKey k (DeepMerge (some b) (some o)) = some (.vmap (DeepMerge bm om))) ∧
    (∀ bv ov, lookupKey k b = some bv → lookupKey k o = some ov →
       (asMapGo bv = none ∨ asMapGo ov = none) →
       lookupKey k (DeepMerge (some b) (some o)) = some (DeepCloneValue ov)) ∧
    (∀ bv, lookupKey k b = some bv → lookupKey k o = none →
       lookupKey k (DeepMerge (some b) (some o)) = some (DeepCloneValue bv)) ∧
    (∀ ov, lookupKey k b = none → lookupKey k o = some ov →
       lookupKey k (DeepMerge (some b) (some o)) = some (DeepCloneValue ov)) ∧
    (lookupKey k b = none → lookupKey k o = none →
       lookupKey k (DeepMerge (some b) (some o)) = none) := by
  refine ⟨?_, ?_, ?_, ?_, ?_⟩
  · intro bv ov bm om hb ho hbm hom
    rw [lookupKey_DeepMerge, hb]
    simp only [ho]
    rw [mergeEntryValue_bothMaps hbm hom]
  · intro bv ov hb ho hnot
    rw [lookupKey_DeepMerge, hb]
    simp only [ho]
    rw [mergeEntryValue_notBothMaps hnot]
  · intro bv hb ho
    rw [lookupKey_DeepMerge, hb]
    simp only [ho]
    simp [mergeEntryValue]
  · intro ov hb ho
    rw [lookupKey_DeepMerge, hb, ho]
    rfl
  · intro hb ho
    rw [lookupKey_DeepMerge, hb, ho]
    rfl

/-- C5 witness: concrete instances — both-slices conflict is wholesale
replacement by the overlay's clone, and nested maps merge recursively. -/
theorem c5_deep_merge_union_semantics_witness :
    lookupKey "tags" (DeepMerge (some [("tags", GoVal.vsliceStr ["dev", "test"])])
        (some [("tags", GoVal.vsliceStr ["prod"])])) =
      some (GoVal.vsliceStr ["prod"]) ∧
    lookupKey "x" (DeepMerge (some [("x", GoVal.vmap [("p", GoVal.vint 1)])])
        (some [("x", GoVal.vmap [("q", GoVal.vint 2)])])) =
      some (GoVal.vmap (DeepMerge (some [("p", GoVal.vint 1)])
        (some [("q", GoVal.vint 2)]))) := by
  constructor
  · exact (c5_deep_merge_union_semantics _ _ "tags").2.1
      (GoVal.vsliceStr ["dev", "test"]) (GoVal.vsliceStr ["prod"]) rfl rfl
      (Or.inl rfl)
  · exact (c5_deep_merge_union_semantics _ _ "x").1
      (GoVal.vmap [("p", GoVal.vint 1)]) (GoVal.vmap [("q", GoVal.vint 2)])
      (some [("p", GoVal.vint 1)]) (some [("q", GoVal.vint 2)]) rfl rfl rfl rfl

/-- C6: `DeepMerge` identity laws — both inputs nil yields the empty mapping;
with exactly one input nil, the result equals the deep clone of the other
input. -/
theorem c6_deep_merge_identity_laws :
    DeepMerge none none = [] ∧
    (∀ b : List (String × GoVal), some (DeepMerge (some b) none) = DeepCloneMap (some b)) ∧
    (∀ o : List (String × GoVal), some (DeepMerge none (some o)) = DeepCloneMap (some o)) := by
  refine ⟨by simp [DeepMerge], ?_, ?_⟩ <;> intro l <;> simp [DeepMerge, DeepCloneMap]

theorem lookupKey_filter_ne {α : Type} (k : String) (es : List (String × α)) :
    lookupKey k (es.filter (fun p => p.1 ≠ k)) = none := by
  induction es with
  | nil => simp [lookupKey]
  | cons p rest ih =>
    obtain ⟨k', v⟩ := p
    simp only [ne_eq, decide_not, List.filter_cons] at ih ⊢
    by_cases hk : k' = k
    · simp [hk, ih]
    · simp [hk, lookupKey, ih]

theorem lookupKey_setEntryList_self {T : Type} (es : List (String × entry T))
    (k : String) (e : entry T) : lookupKey k (setEntryList es k e) = some e := by
  unfold setEntryList
  rw [lookupKey_append_none (lookupKey_filter_ne k es)]
  simp [lookupKey]

theorem length_filter_lt_of_mem {α : Type} {l : List α} {p : α → Bool} {a : α}
    (ha : a ∈ l) (hpa : p a = false) : (l.filter p).length < l.length := by
  induction l with
  | nil => simp at ha
  | cons b rest ih =>
    by_cases hb : p b
    · have hab : a ∈ rest := by
        rcases List.mem_cons.mp ha with h | h
        · subst h; rw [hpa] at hb; simp at hb
        · exact h
      simp only [List.filter, hb, List.length_cons]
      exact Nat.succ_lt_succ (ih hab)
    · simp only [List.filter, Bool.not_eq_true] at hb
      simp only [List.filter, hb, List.length_cons]
      exact Nat.lt_succ_of_le (List.length_filter_le _ _)

/-- C1: `Set(k, v)` followed by `Get(k)` before the TTL elapses returns
`(v, true)`; the entry written by `Set` has expiration equal to the insertion
time plus the configured ttl; and a repeated `Set` to the same key
wholesale-replaces the entry (last-write-wins). -/
theorem c1_set_then_get {T : Type} (c : defaultCache T) (key : GoKey) (v : T)
    (t tR : Int) (h : tR < t + c.ttl) :
    ((c.Set t key v).Get tR key).1 = some v ∧
    lookupKey (c.keyFunc key) (c.Set t key v).entries = some ⟨v, t + c.ttl⟩ ∧
    (∀ (t' : Int) (v' : T),
       lookupKey (c.keyFunc key) ((c.Set t key v).Set t' key v').entries =
         some ⟨v', t' + c.ttl⟩) := by
  have hset : lookupKey (c.keyFunc key) (c.Set t key v).entries =
      some ⟨v, t + c.ttl⟩ := by
    simp [defaultCache.Set, lookupKey_setEntryList_self]
  refine ⟨?_, hset, ?_⟩
  · show (match lookupKey (c.keyFunc key) (c.Set t key v).entries with
      | none => (none, c.Set t key v)
      | some e => if tR > e.expiration then (none, c.Set t key v)
                  else (some e.value, c.Set t key v)).1 = some v
    rw [hset]
    simp only [if_neg (show ¬ tR > t + c.ttl by omega)]
  · intro t' v'
    simp [defaultCache.Set, lookupKey_setEntryList_self]

/-- C1 witness: a freshly constructed cache, `Set` at time 0, `Get` at
time 1 with the default 5-minute TTL. -/
theorem c1_set_then_get_witness :
    (1 : Int) < 0 + (New (T := Int) []).ttl ∧
    (((New (T := Int) []).Set 0 (GoKey.kstr "k") 5).Get 1 (GoKey.kstr "k")).1 =
      some 5 := by
  refine ⟨by decide, ?_⟩
  exact (c1_set_then_get (New (T := Int) []) (GoKey.kstr "k") 5 0 1 (by decide)).1

/-- C2 counterexample: the claim says `Get` misses whenever `now ≥ expiresAt`,
but at the boundary `now = expiresAt` the code's `time.Now().After(expiration)`
is false and `Get` returns the stored value: with an entry expiring at 100,
`Get` at `now = 100` returns `(7, true)`, not `(zero, false)`. -/
theorem c2_get_boundary_counterexample :
    (100 : Int) ≥ 100 ∧
    (defaultCache.Get ⟨[("k", ⟨7, 100⟩)], 60, DefaultKeyFunc⟩ 100
        (GoKey.kstr "k")).1 = some 7 ∧
    (defaultCache.Get ⟨[("k", ⟨(7 : Int), 100⟩)], 60, DefaultKeyFunc⟩ 100
        (GoKey.kstr "k")).1 ≠ none := by
  refine ⟨le_refl _, rfl, by decide⟩

/-- C2 (amended): `Get` returns `(zero, false)` whenever the entry is absent
or `now` is strictly after `expiresAt`, and it never modifies the entry
store (in particular an expired entry is not removed). -/
theorem c2_lazy_expiration {T : Type} (c : defaultCache T) (now : Int) (key : GoKey) :
    (lookupKey (c.keyFunc key) c.entries = none → (c.Get now key).1 = none) ∧
    (∀ e, lookupKey (c.keyFunc key) c.entries = some e → now > e.expiration →
       (c.Get now key).1 = none) ∧
    (c.Get now key).2 = c := by
  refine ⟨?_, ?_, ?_⟩
  · intro h
    simp [defaultCache.Get, h]
  · intro e h hexp
    simp [defaultCache.Get, h, hexp]
  · unfold defaultCache.Get
    cases lookupKey (c.keyFunc key) c.entries with
    | none => rfl
    | some e =>
      by_cases hexp : now > e.expiration
      · simp [hexp]
      · simp [hexp]

/-- C2 (amended) witness: expired entry (now strictly past expiry) misses
and the store is unchanged. -/
theorem c2_lazy_expiration_witness :
    (defaultCache.Get ⟨[("k", ⟨(7 : Int), 100⟩)], 60, DefaultKeyFunc⟩ 101
        (GoKey.kstr "k")).1 = none ∧
    (defaultCache.Get ⟨[("k", ⟨(7 : Int), 100⟩)], 60, DefaultKeyFunc⟩ 101
        (GoKey.kstr "k")).2 = ⟨[("k", ⟨(7 : Int), 100⟩)], 60, DefaultKeyFunc⟩ := by
  constructor
  · exact (c2_lazy_expiration ⟨[("k", ⟨(7 : Int), 100⟩)], 60, DefaultKeyFunc⟩ 101
      (GoKey.kstr "k")).2.1 ⟨7, 100⟩ rfl (by decide)
  · exact (c2_lazy_expiration ⟨[("k", ⟨(7 : Int), 100⟩)], 60, DefaultKeyFunc⟩ 101
      (GoKey.kstr "k")).2.2

/-- C3 counterexample: the claim says `Sync` deletes every entry with
`expiresAt ≤ now`, but at the boundary `expiresAt = now` the code's
`now.After(expiration)` is false and the entry is kept: with an entry
expiring at 100, `Sync` at `now = 100` leaves the store unchanged. -/
theorem c3_sync_boundary_counterexample :
    (100 : Int) ≤ 100 ∧
    (defaultCache.Sync ⟨[("k", ⟨(7 : Int), 100⟩)], 60, DefaultKeyFunc⟩ 100).entries =
      [("k", ⟨7, 100⟩)] := by
  exact ⟨le_refl _, rfl⟩

/-- C3 (amended): `Sync` physically deletes exactly the entries whose
`expiresAt` is strictly before `now`: every such entry is removed, every
entry with `expiresAt ≥ now` remains, no entry is added, and after the clock
advances strictly past an entry's `expiresAt` a `Sync` strictly decreases
the entry count. -/
theorem c3_sync_deletes_strictly_expired {T : Type} (c : defaultCache T) (now : Int) :
    (∀ k e, (k, e) ∈ c.entries → e.expiration < now → (k, e) ∉ (c.Sync now).entries) ∧
    (∀ k e, (k, e) ∈ c.entries → now ≤ e.expiration → (k, e) ∈ (c.Sync now).entries) ∧
    (∀ p, p ∈ (c.Sync now).entries → p ∈ c.entries) ∧
    (∀ k e, (k, e) ∈ c.entries → e.expiration < now →
       (c.Sync now).entries.length < c.entries.length) := by
  refine ⟨?_, ?_, ?_, ?_⟩
  · intro k e hmem hexp hcon
    have := (List.mem_filter.mp hcon).2
    simp [hexp] at this
  · intro k e hmem hexp
    refine List.mem_filter.mpr ⟨hmem, ?_⟩
    simp only [Bool.not_eq_true', decide_eq_false_iff_not]
    omega
  · intro p hp
    exact (List.mem_filter.mp hp).1
  · intro k e hmem hexp
    refine length_filter_lt_of_mem hmem ?_
    simp [hexp]

/-- C3 (amended) witness: entries expiring at 50 and 200, `Sync` at `now =
100` removes the first, keeps the second, and shrinks the store. -/
theorem c3_sync_deletes_strictly_expired_witness :
    ("a", (⟨1, 50⟩ : entry Int)) ∉
      (defaultCache.Sync ⟨[("a", ⟨1, 50⟩), ("b", ⟨2, 200⟩)], 60, DefaultKeyFunc⟩ 100).entries ∧
    ("b", (⟨2, 200⟩ : entry Int)) ∈
      (defaultCache.Sync ⟨[("a", ⟨1, 50⟩), ("b", ⟨2, 200⟩)], 60, DefaultKeyFunc⟩ 100).entries ∧
    (defaultCache.Sync (T := Int) ⟨[("a", ⟨1, 50⟩), ("b", ⟨2, 200⟩)], 60, DefaultKeyFunc⟩
        100).entries.length <
      ([("a", ((⟨1, 50⟩ : entry Int))), ("b", ⟨2, 200⟩)]).length := by
  refine ⟨?_, ?_, ?_⟩
  · exact (c3_sync_deletes_strictly_expired
      ⟨[("a", ⟨1, 50⟩), ("b", ⟨2, 200⟩)], 60, DefaultKeyFunc⟩ 100).1 "a" ⟨1, 50⟩
      (by simp) (by decide)
  · exact (c3_sync_deletes_strictly_expired
      ⟨[("a", ⟨1, 50⟩), ("b", ⟨2, 200⟩)], 60, DefaultKeyFunc⟩ 100).2.1 "b" ⟨2, 200⟩
      (by simp) (by decide)
  · exact (c3_sync_deletes_strictly_expired
      ⟨[("a", ⟨1, 50⟩), ("b", ⟨2, 200⟩)], 60, DefaultKeyFunc⟩ 100).2.2.2 "a" ⟨1, 50⟩
      (by simp) (by decide)

/-- C9: cache construction never fails for any option list — a configured
TTL ≤ 0 is silently reset to the 5-minute default, a nil key normalizer is
silently replaced by `DefaultKeyFunc`, so every constructed cache has
`ttl > 0` and the configured key function; valid configured values are kept. -/
theorem c9_construction_defaults {T : Type} (opts : List (Options → Options)) :
    0 < (New (T := T) opts).ttl ∧
    ((applyOptions opts).TTL ≤ 0 → (New (T := T) opts).ttl = defaultTTL) ∧
    ((applyOptions opts).KeyFunc = none → (New (T := T) opts).keyFunc = DefaultKeyFunc) ∧
    (0 < (applyOptions opts).TTL → (New (T := T) opts).ttl = (applyOptions opts).TTL) ∧
    (∀ f, (applyOptions opts).KeyFunc = some f → (New (T := T) opts).keyFunc = f) := by
  unfold New
  by_cases httl : (applyOptions opts).TTL ≤ 0 <;>
    cases hkf : (applyOptions opts).KeyFunc <;>
    simp [httl, hkf, defaultTTL] <;> omega

/-- C9 witness: an option list that sets a non-positive TTL and a nil key
function; construction still yields the defaults. -/
theorem c9_construction_defaults_witness :
    (New (T := Int) [WithTTL (-5), WithKeyFunc none]).ttl = defaultTTL ∧
    (New (T := Int) [WithTTL (-5), WithKeyFunc none]).keyFunc = DefaultKeyFunc := by
  constructor
  · exact (c9_construction_defaults [WithTTL (-5), WithKeyFunc none]).2.1 (by decide)
  · exact (c9_construction_defaults [WithTTL (-5), WithKeyFunc none]).2.2.1 rfl

/-- C10: the default key normalizer is total (by typing); string keys pass
through verbatim, byte sequences convert directly to the string of their
bytes, `int` and `int64` render as decimal text, and every other value
reduces to a stable structural representation (the same logical value yields
the same string across calls). -/
theorem c10_default_key_func :
    (∀ s, DefaultKeyFunc (.kstr s) = s) ∧
    (∀ bs, DefaultKeyFunc (.kbytes bs) = String.mk bs) ∧
    (∀ n : Int, DefaultKeyFunc (.kint n) = toString n) ∧
    (∀ n : Int, DefaultKeyFunc (.kint64 n) = toString n) ∧
    (∀ v w : GoVal, v = w →
       DefaultKeyFunc (.kother v) = DefaultKeyFunc (.kother w)) := by
  refine ⟨fun s => rfl, fun bs => rfl, fun n => rfl, fun n => rfl, ?_⟩
  intro v w h
  rw [h]

/-- C10 witness: concrete keys of each kind. -/
theorem c10_default_key_func_witness :
    DefaultKeyFunc (.kstr "abc") = "abc" ∧
    DefaultKeyFunc (.kint 42) = "42" ∧
    DefaultKeyFunc (.kother (.vint 3)) = DefaultKeyFunc (.kother (.vint 3)) := by
  refine ⟨c10_default_key_func.1 "abc", ?_, ?_⟩
  · rw [c10_default_key_func.2.2.1 42]
    decide
  · exact c10_default_key_func.2.2.2.2 (.vint 3) (.vint 3) rfl

theorem get_hit {T : Type} {c : defaultCache T} {now : Int} {key : GoKey}
    {e : entry T} (h : lookupKey (c.keyFunc key) c.entries = some e)
    (hfresh : now ≤ e.expiration) : (c.Get now key).1 = some e.value := by
  unfold defaultCache.Get
  rw [h]
  simp only [if_neg (show ¬ now > e.expiration by omega)]

theorem get_miss {T : Type} {c : defaultCache T} {now : Int} {key : GoKey}
    (h : lookupKey (c.keyFunc key) c.entries = none) : (c.Get now key).1 = none := by
  simp [defaultCache.Get, h]

/-- C8: the render cache stores an explicit nil sequence as nil (not as an
empty sequence); a subsequent non-expired `Get` on that key returns
`(nil, true)`, which is distinct from the `(zero, false)` of a true cache
miss; and a stored non-nil sequence is returned as a fresh sequence with
every element individually deep-cloned. -/
theorem c8_render_cache_nil_vs_miss {U : Type} (dc : U → U) (r : renderCache U)
    (key : GoKey) (t tR : Int) :
    lookupKey (r.cache.keyFunc key) (renderCache.Set dc r t key none).cache.entries =
      some ⟨none, t + r.cache.ttl⟩ ∧
    (tR ≤ t + r.cache.ttl →
       renderCache.Get dc (renderCache.Set dc r t key none) tR key = some none) ∧
    (lookupKey (r.cache.keyFunc key) r.cache.entries = none →
       renderCache.Get dc r tR key = none) ∧
    (∀ (ys : List U) (exp : Int),
       lookupKey (r.cache.keyFunc key) r.cache.entries = some ⟨some ys, exp⟩ →
       tR ≤ exp → renderCache.Get dc r tR key = some (some (ys.map dc))) ∧
    some (none : Option (List U)) ≠ (none : Option (Option (List U))) := by
  have hnil : lookupKey (r.cache.keyFunc key)
      (renderCache.Set dc r t key none).cache.entries = some ⟨none, t + r.cache.ttl⟩ := by
    simp [renderCache.Set, defaultCache.Set, lookupKey_setEntryList_self]
  refine ⟨hnil, ?_, ?_, ?_, by simp⟩
  · intro hfresh
    unfold renderCache.Get
    have h1 : ((renderCache.Set dc r t key none).cache.Get tR key).1 = some none :=
      get_hit hnil (by simpa using hfresh)
    rw [h1]
  · intro hmiss
    unfold renderCache.Get
    have h1 : (r.cache.Get tR key).1 = none := get_miss hmiss
    rw [h1]
  · intro ys exp hentry hfresh
    unfold renderCache.Get
    have h1 : (r.cache.Get tR key).1 = some (some ys) := get_hit hentry hfresh
    rw [h1]

/-- C8 witness: storing nil yields `(nil, true)` on a fresh read, and a
stored two-element sequence comes back with each element deep-cloned (the
clone operation here adds one, making the fresh copies observable). -/
theorem c8_render_cache_nil_vs_miss_witness :
    renderCache.Get (fun x => x + 1)
      (renderCache.Set (fun x => x + 1)
        (⟨⟨[], 60, DefaultKeyFunc⟩⟩ : renderCache Int) 0 (GoKey.kstr "k") none)
      10 (GoKey.kstr "k") = some none ∧
    renderCache.Get (fun x => x + 1)
      (⟨⟨[("k", ⟨some [1, 2], 100⟩)], 60, DefaultKeyFunc⟩⟩ : renderCache Int)
      50 (GoKey.kstr "k") = some (some [2, 3]) := by
  constructor
  · exact (c8_render_cache_nil_vs_miss (fun x => x + 1)
      (⟨⟨[], 60, DefaultKeyFunc⟩⟩ : renderCache Int) (GoKey.kstr "k") 0 10).2.1
      (by decide)
  · exact (c8_render_cache_nil_vs_miss (fun x => x + 1)
      (⟨⟨[("k", ⟨some [1, 2], 100⟩)], 60, DefaultKeyFunc⟩⟩ : renderCache Int)
      (GoKey.kstr "k") 0 50).2.2.2.1 [1, 2] 100 rfl (by decide)

mutual
theorem acloneValue_supply_le (v : AVal) (s : Nat) : s ≤ (acloneValue v s).2 := by
  cases v with
  | amap i es =>
    rcases hE : acloneEntries es (s + 1) with ⟨es', s'⟩
    have h := acloneEntries_supply_le es (s + 1)
    rw [hE] at h
    simp [acloneValue, hE]
    omega
  | aslice i es =>
    rcases hE : acloneElems es (s + 1) with ⟨es', s'⟩
    have h := acloneElems_supply_le es (s + 1)
    rw [hE] at h
    simp [acloneValue, hE]
    omega
  | _ => simp [acloneValue]

theorem acloneEntries_supply_le (es : List (String × AVal)) (s : Nat) :
    s ≤ (acloneEntries es s).2 := by
  cases es with
  | nil => simp [acloneEntries]
  | cons p rest =>
    obtain ⟨k, v⟩ := p
    rcases hV : acloneValue v s with ⟨v', s1⟩
    rcases hR : acloneEntries rest s1 with ⟨rest', s2⟩
    have h1 := acloneValue_supply_le v s
    have h2 := acloneEntries_supply_le rest s1
    rw [hV] at h1
    rw [hR] at h2
    simp [acloneEntries, hV, hR]
    omega

theorem acloneElems_supply_le (es : List AVal) (s : Nat) :
    s ≤ (acloneElems es s).2 := by
  cases es with
  | nil => simp [acloneElems]
  | cons v rest =>
    rcases hV : acloneValue v s with ⟨v', s1⟩
    rcases hR : acloneElems rest s1 with ⟨rest', s2⟩
    have h1 := acloneValue_supply_le v s
    have h2 := acloneElems_supply_le rest s1
    rw [hV] at h1
    rw [hR] at h2
    simp [acloneElems, hV, hR]
    omega
end

mutual
theorem strip_acloneValue (v : AVal) (s : Nat) : strip (acloneValue v s).1 = strip v := by
  cases v with
  | amap i es =>
    rcases hE : acloneEntries es (s + 1) with ⟨es', s'⟩
    have h := strip_acloneEntries es (s + 1)
    rw [hE] at h
    simp [acloneValue, hE, strip]
    exact h
  | aslice i es =>
    rcases hE : acloneElems es (s + 1) with ⟨es', s'⟩
    have h := strip_acloneElems es (s + 1)
    rw [hE] at h
    simp [acloneValue, hE, strip]
    exact h
  | _ => simp [acloneValue, strip]

theorem strip_acloneEntries (es : List (String × AVal)) (s : Nat) :
    stripEntries (acloneEntries es s).1 = stripEntries es := by
  cases es with
  | nil => simp [acloneEntries]
  | cons p rest =>
    obtain ⟨k, v⟩ := p
    rcases hV : acloneValue v s with ⟨v', s1⟩
    rcases hR : acloneEntries rest s1 with ⟨rest', s2⟩
    have h1 := strip_acloneValue v s
    have h2 := strip_acloneEntries rest s1
    rw [hV] at h1
    rw [hR] at h2
    simp [acloneEntries, hV, hR, stripEntries]
    exact ⟨h1, h2⟩

theorem strip_acloneElems (es : List AVal) (s : Nat) :
    stripElems (acloneElems es s).1 = stripElems es := by
  cases es with
  | nil => simp [acloneElems]
  | cons v rest =>
    rcases hV : acloneValue v s with ⟨v', s1⟩
    rcases hR : acloneElems rest s1 with ⟨rest', s2⟩
    have h1 := strip_acloneValue v s
    have h2 := strip_acloneElems rest s1
    rw [hV] at h1
    rw [hR] at h2
    simp [acloneElems, hV, hR, stripElems]
    exact ⟨h1, h2⟩
end

mutual
theorem acloneValue_ids_ge (v : AVal) (s : Nat) (hrec : recognized v = true) :
    ∀ i ∈ ids (acloneValue v s).1, s ≤ i := by
  cases v with
  | amap i es =>
    rcases hE : acloneEntries es (s + 1) with ⟨es', s'⟩
    have h := acloneEntries_ids_ge es (s + 1) (by simpa [recognized] using hrec)
    rw [hE] at h
    simp only [acloneValue, hE, ids]
    intro j hj
    rcases List.mem_cons.mp hj with h' | h'
    · omega
    · have := h j h'
      omega
  | aslice i es =>
    rcases hE : acloneElems es (s + 1) with ⟨es', s'⟩
    have h := acloneElems_ids_ge es (s + 1) (by simpa [recognized] using hrec)
    rw [hE] at h
    simp only [acloneValue, hE, ids]
    intro j hj
    rcases List.mem_cons.mp hj with h' | h'
    · omega
    · have := h j h'
      omega
  | asliceOther i es => simp [recognized] at hrec
  | aptr i => simp [recognized] at hrec
  | asliceStr i xs => simp [acloneValue, ids]
  | asliceInt i xs => simp [acloneValue, ids]
  | asliceInt64 i xs => simp [acloneValue, ids]
  | asliceFloat i xs => simp [acloneValue, ids]
  | asliceBool i xs => simp [acloneValue, ids]
  | _ => simp [acloneValue, ids]

theorem acloneEntries_ids_ge (es : List (String × AVal)) (s : Nat)
    (hrec : recognizedEntries es = true) :
    ∀ i ∈ idsEntries (acloneEntries es s).1, s ≤ i := by
  cases es with
  | nil => simp [acloneEntries, idsEntries]
  | cons p rest =>
    obtain ⟨k, v⟩ := p
    rcases hV : acloneValue v s with ⟨v', s1⟩
    rcases hR : acloneEntries rest s1 with ⟨rest', s2⟩
    simp only [recognizedEntries, Bool.and_eq_true] at hrec
    have h1 := acloneValue_ids_ge v s hrec.1
    have h2 := acloneEntries_ids_ge rest s1 hrec.2
    have hmono := acloneValue_supply_le v s
    rw [hV] at h1 hmono
    rw [hR] at h2
    simp only [acloneEntries, hV, hR, idsEntries]
    intro j hj
    rcases List.mem_append.mp hj with h' | h'
    · exact h1 j h'
    · have := h2 j h'
      omega

theorem acloneElems_ids_ge (es : List AVal) (s : Nat)
    (hrec : recognizedElems es = true) :
    ∀ i ∈ idsElems (acloneElems es s).1, s ≤ i := by
  cases es with
  | nil => simp [acloneElems, idsElems]
  | cons v rest =>
    rcases hV : acloneValue v s with ⟨v', s1⟩
    rcases hR : acloneElems rest s1 with ⟨rest', s2⟩
    simp only [recognizedElems, Bool.and_eq_true] at hrec
    have h1 := acloneValue_ids_ge v s hrec.1
    have h2 := acloneElems_ids_ge rest s1 hrec.2
    have hmono := acloneValue_supply_le v s
    rw [hV] at h1 hmono
    rw [hR] at h2
    simp only [acloneElems, hV, hR, idsElems]
    intro j hj
    rcases List.mem_append.mp hj with h' | h'
    · exact h1 j h'
    · have := h2 j h'
      omega
end

theorem idsEntries_append (xs ys : List (String × AVal)) :
    idsEntries (xs ++ ys) = idsEntries xs ++ idsEntries ys := by
  induction xs with
  | nil => simp [idsEntries]
  | cons p rest ih =>
    obtain ⟨k, v⟩ := p
    simp [idsEntries, ih]

theorem recognized_lookupKey {o : List (String × AVal)} {k : String} {ov : AVal}
    (hrec : recognizedEntries o = true) (h : lookupKey k o = some ov) :
    recognized ov = true := by
  induction o with
  | nil => simp [lookupKey] at h
  | cons p rest ih =>
    obtain ⟨k', v⟩ := p
    simp only [recognizedEntries, Bool.and_eq_true] at hrec
    simp only [lookupKey] at h
    by_cases hk : k' = k
    · simp [hk] at h
      subst h
      exact hrec.1
    · simp [hk] at h
      exact ih hrec.2 h

theorem amergeRest_supply_le (b : List (String × AVal)) (o : List (String × AVal))
    (s : Nat) : s ≤ (amergeRest b o s).2 := by
  induction o generalizing s with
  | nil => simp [amergeRest]
  | cons p rest ih =>
    obtain ⟨k, ov⟩ := p
    by_cases hb : (lookupKey k b).isNone
    · rcases hV : acloneValue ov s with ⟨v', s1⟩
      rcases hR : amergeRest b rest s1 with ⟨rest', s2⟩
      have h1 := acloneValue_supply_le ov s
      have h2 := ih s1
      rw [hV] at h1
      rw [hR] at h2
      simp [amergeRest, hb, hV, hR]
      omega
    · simp only [amergeRest, hb, Bool.false_eq_true, if_false]
      exact ih s

mutual
theorem amerge_supply_le (b o : AMapA) (s : Nat) : s ≤ (amerge b o s).2 := by
  cases b with
  | none =>
    cases o with
    | none => simp [amerge]
    | some po =>
      obtain ⟨oi, oes⟩ := po
      rcases hE : acloneEntries oes (s + 1) with ⟨es', s'⟩
      have h := acloneEntries_supply_le oes (s + 1)
      rw [hE] at h
      simp [amerge, hE]
      omega
  | some pb =>
    obtain ⟨bi, bes⟩ := pb
    cases o with
    | none =>
      rcases hE : acloneEntries bes (s + 1) with ⟨es', s'⟩
      have h := acloneEntries_supply_le bes (s + 1)
      rw [hE] at h
      simp [amerge, hE]
      omega
    | some po =>
      obtain ⟨oi, oes⟩ := po
      rcases h1 : amergeBase bes oes (s + 1) with ⟨es1, s1⟩
      rcases h2 : amergeRest bes oes s1 with ⟨es2, s2⟩
      have hb1 := amergeBase_supply_le bes oes (s + 1)
      have hb2 := amergeRest_supply_le bes oes s1
      rw [h1] at hb1
      rw [h2] at hb2
      simp [amerge, h1, h2]
      omega
termination_by sizeOf b + sizeOf o
decreasing_by
  all_goals simp_wf
  all_goals omega

theorem amergeBase_supply_le (l o : List (String × AVal)) (s : Nat) :
    s ≤ (amergeBase l o s).2 := by
  cases l with
  | nil => simp [amergeBase]
  | cons p rest =>
    obtain ⟨k, bv⟩ := p
    rcases hV : amergeEntryValue bv (lookupKey k o) s with ⟨v', s1⟩
    rcases hR : amergeBase rest o s1 with ⟨rest', s2⟩
    have h1 := amergeEntryValue_supply_le bv (lookupKey k o) s
    have h2 := amergeBase_supply_le rest o s1
    rw [hV] at h1
    rw [hR] at h2
    simp [amergeBase, hV, hR]
    omega
termination_by sizeOf l + sizeOf o
decreasing_by
  all_goals simp_wf
  all_goals first
  | omega
  | (have hlk := sizeOf_lookupKey_le fst o
     have hr := list_sizeOf_pos tail
     omega)

theorem amergeEntryValue_supply_le (bv : AVal) (ovOpt : Option AVal) (s : Nat) :
    s ≤ (amergeEntryValue bv ovOpt s).2 := by
  cases ovOpt with
  | none =>
    simp only [amergeEntryValue]
    exact acloneValue_supply_le bv s
  | some ov =>
    cases bv <;> cases ov <;>
    first
    | (simp only [amergeEntryValue]
       exact acloneValue_supply_le _ _)
    | (simp only [amergeEntryValue]
       exact amerge_supply_le _ _ _)
termination_by sizeOf bv + sizeOf ovOpt + 2
decreasing_by
  all_goals simp_wf
  all_goals omega
end

theorem amergeRest_ids_ge (b o : List (String × AVal)) (s : Nat)
    (ho : recognizedEntries o = true) :
    ∀ i ∈ idsEntries (amergeRest b o s).1, s ≤ i := by
  induction o generalizing s with
  | nil => simp [amergeRest, idsEntries]
  | cons p rest ih =>
    obtain ⟨k, ov⟩ := p
    simp only [recognizedEntries, Bool.and_eq_true] at ho
    by_cases hb : (lookupKey k b).isNone
    · rcases hV : acloneValue ov s with ⟨v', s1⟩
      rcases hR : amergeRest b rest s1 with ⟨rest', s2⟩
      have h1 := acloneValue_ids_ge ov s ho.1
      have h2 := ih s1 ho.2
      have hmono := acloneValue_supply_le ov s
      rw [hV] at h1 hmono
      rw [hR] at h2
      simp only [amergeRest, hb, if_true, hV, hR, idsEntries]
      intro j hj
      rcases List.mem_append.mp hj with h' | h'
      · exact h1 j h'
      · have := h2 j h'
        omega
    · simp only [amergeRest, hb, Bool.false_eq_true, if_false]
      exact ih s ho.2

mutual
theorem amerge_ids_ge (b o : AMapA) (s : Nat) :
    recognizedM b = true → recognizedM o = true →
    ∀ i ∈ ids (.amap (amerge b o s).1.1 (amerge b o s).1.2), s ≤ i := by
  rcases b with _ | ⟨bi, bes⟩
  · rcases o with _ | ⟨oi, oes⟩
    · intro hb ho
      simp [amerge, ids, idsEntries]
    · intro hb ho
      rcases hE : acloneEntries oes (s + 1) with ⟨es', s'⟩
      have h := acloneEntries_ids_ge oes (s + 1) (by simpa [recognizedM] using ho)
      rw [hE] at h
      simp only [amerge, hE, ids]
      intro j hj
      rcases List.mem_cons.mp hj with h' | h'
      · omega
      · have := h j h'
        omega
  · rcases o with _ | ⟨oi, oes⟩
    · intro hb ho
      rcases hE : acloneEntries bes (s + 1) with ⟨es', s'⟩
      have h := acloneEntries_ids_ge bes (s + 1) (by simpa [recognizedM] using hb)
      rw [hE] at h
      simp only [amerge, hE, ids]
      intro j hj
      rcases List.mem_cons.mp hj with h' | h'
      · omega
      · have := h j h'
        omega
    · intro hb ho
      rcases h1 : amergeBase bes oes (s + 1) with ⟨es1, s1⟩
      rcases h2 : amergeRest bes oes s1 with ⟨es2, s2⟩
      have hb1 := amergeBase_ids_ge bes oes (s + 1)
        (by simpa [recognizedM] using hb) (by simpa [recognizedM] using ho)
      have hb2 := amergeRest_ids_ge bes oes s1 (by simpa [recognizedM] using ho)
      have hm1 := amergeBase_supply_le bes oes (s + 1)
      rw [h1] at hb1 hm1
      rw [h2] at hb2
      simp only [amerge, h1, h2, ids]
      intro j hj
      rcases List.mem_cons.mp hj with h' | h'
      · omega
      · rw [idsEntries_append] at h'
        rcases List.mem_append.mp h' with h'' | h''
        · have := hb1 j h''
          omega
        · have := hb2 j h''
          omega
termination_by sizeOf b + sizeOf o
decreasing_by
  all_goals simp_wf
  all_goals omega

theorem amergeBase_ids_ge (l o : List (String × AVal)) (s : Nat) :
    recognizedEntries l = true → recognizedEntries o = true →
    ∀ i ∈ idsEntries (amergeBase l o s).1, s ≤ i := by
  rcases l with _ | ⟨⟨k, bv⟩, rest⟩
  · intro hl ho
    simp [amergeBase, idsEntries]
  · intro hl ho
    simp only [recognizedEntries, Bool.and_eq_true] at hl
    rcases hV : amergeEntryValue bv (lookupKey k o) s with ⟨v', s1⟩
    rcases hR : amergeBase rest o s1 with ⟨rest', s2⟩
    have h1 := amergeEntryValue_ids_ge bv (lookupKey k o) s hl.1
      (fun ov hov => recognized_lookupKey ho hov)
    have h2 := amergeBase_ids_ge rest o s1 hl.2 ho
    have hmono := amergeEntryValue_supply_le bv (lookupKey k o) s
    rw [hV] at h1 hmono
    rw [hR] at h2
    simp only [amergeBase, hV, hR, idsEntries]
    intro j hj
    rcases List.mem_append.mp hj with h' | h'
    · exact h1 j h'
    · have := h2 j h'
      omega
termination_by sizeOf l + sizeOf o
decreasing_by
  all_goals simp_wf
  all_goals first
  | omega
  | (have hlk := sizeOf_lookupKey_le fst o
     have hr := list_sizeOf_pos tail
     omega)

theorem amergeEntryValue_ids_ge (bv : AVal) (ovOpt : Option AVal) (s : Nat) :
    recognized bv = true →
    (∀ ov, ovOpt = some ov → recognized ov = true) →
    ∀ i ∈ ids (amergeEntryValue bv ovOpt s).1, s ≤ i := by
  rcases ovOpt with _ | ov
  · intro hb ho
    simp only [amergeEntryValue]
    exact acloneValue_ids_ge bv s hb
  · cases bv <;> cases ov <;>
    (intro hb ho) <;>
    first
    | (simp only [amergeEntryValue]
       exact acloneValue_ids_ge _ s (ho _ rfl))
    | (simp only [amergeEntryValue]
       exact amerge_ids_ge _ _ s
         (by first | rfl | (simpa [recognizedM, recognized] using hb))
         (by first | rfl | (simpa [recognizedM, recognized] using ho _ rfl)))
termination_by sizeOf bv + sizeOf ovOpt + 2
decreasing_by
  all_goals simp_wf
  all_goals omega
end

theorem amerge_top_id (b o : AMapA) (s : Nat) : (amerge b o s).1.1 = s := by
  rcases b with _ | ⟨bi, bes⟩ <;> rcases o with _ | ⟨oi, oes⟩
  · simp [amerge]
  · rcases hE : acloneEntries oes (s + 1) with ⟨es', s'⟩
    simp [amerge, hE]
  · rcases hE : acloneEntries bes (s + 1) with ⟨es', s'⟩
    simp [amerge, hE]
  · rcases h1 : amergeBase bes oes (s + 1) with ⟨es1, s1⟩
    rcases h2 : amergeRest bes oes s1 with ⟨es2, s2⟩
    simp [amerge, h1, h2]

/-- C4: for every tree of the recognized shapes (nested maps, `[]any`, and
the enumerated typed slices), the deep clone is structurally equal to its
source and its reachable mutable backing containers are disjoint from the
source's, so no write through the clone (a write targets a container id) is
observable through the source or vice versa; and `DeepMerge` always returns
a freshly allocated result map and, on recognized inputs, shares no mutable
container with either input — hence never mutates them. -/
theorem c4_clone_isolation_and_merge_freshness :
    (∀ (v : AVal) (s : Nat), recognized v = true → (∀ i ∈ ids v, i < s) →
       strip (acloneValue v s).1 = strip v ∧
       List.Disjoint (ids (acloneValue v s).1) (ids v)) ∧
    (∀ (b o : AMapA) (s : Nat),
       (amerge b o s).1.1 = s ∧
       (recognizedM b = true → recognizedM o = true →
        (∀ i ∈ idsM b, i < s) → (∀ i ∈ idsM o, i < s) →
        List.Disjoint (ids (.amap (amerge b o s).1.1 (amerge b o s).1.2))
          (idsM b ++ idsM o))) := by
  constructor
  · intro v s hrec hfresh
    refine ⟨strip_acloneValue v s, ?_⟩
    intro a ha hmem
    have h1 := acloneValue_ids_ge v s hrec a ha
    have h2 := hfresh a hmem
    omega
  · intro b o s
    refine ⟨amerge_top_id b o s, ?_⟩
    intro hb ho hfb hfo a ha hmem
    have h1 := amerge_ids_ge b o s hb ho a ha
    rcases List.mem_append.mp hmem with h | h
    · have := hfb a h
      omega
    · have := hfo a h
      omega

/-- C4 witness: a concrete recognized tree (map containing an `[]any` slice
and a typed string slice) cloned at supply 10, and a concrete merge of two
maps with nested maps at supply 20. -/
theorem c4_clone_isolation_and_merge_freshness_witness :
    strip (acloneValue
        (.amap 0 [("a", .aslice 1 [.aint 5]), ("b", .asliceStr 2 ["x"])]) 10).1 =
      strip (.amap 0 [("a", .aslice 1 [.aint 5]), ("b", .asliceStr 2 ["x"])]) ∧
    List.Disjoint
      (ids (acloneValue
        (.amap 0 [("a", .aslice 1 [.aint 5]), ("b", .asliceStr 2 ["x"])]) 10).1)
      (ids (.amap 0 [("a", .aslice 1 [.aint 5]), ("b", .asliceStr 2 ["x"])])) ∧
    (amerge (some (3, [("m", .amap 4 [("x", .aint 1)])]))
        (some (5, [("m", .amap 6 [("y", .aint 2)])])) 20).1.1 = 20 ∧
    List.Disjoint
      (ids (.amap
        (amerge (some (3, [("m", .amap 4 [("x", .aint 1)])]))
          (some (5, [("m", .amap 6 [("y", .aint 2)])])) 20).1.1
        (amerge (some (3, [("m", .amap 4 [("x", .aint 1)])]))
          (some (5, [("m", .amap 6 [("y", .aint 2)])])) 20).1.2))
      (idsM (some (3, [("m", .amap 4 [("x", .aint 1)])])) ++
        idsM (some (5, [("m", .amap 6 [("y", .aint 2)])]))) := by
  refine ⟨?_, ?_, ?_, ?_⟩
  · exact (c4_clone_isolation_and_merge_freshness.1
      (.amap 0 [("a", .aslice 1 [.aint 5]), ("b", .asliceStr 2 ["x"])]) 10
      (by decide) (by decide)).1
  · exact (c4_clone_isolation_and_merge_freshness.1
      (.amap 0 [("a", .aslice 1 [.aint 5]), ("b", .asliceStr 2 ["x"])]) 10
      (by decide) (by decide)).2
  · exact (c4_clone_isolation_and_merge_freshness.2
      (some (3, [("m", .amap 4 [("x", .aint 1)])]))
      (some (5, [("m", .amap 6 [("y", .aint 2)])])) 20).1
  · exact (c4_clone_isolation_and_merge_freshness.2
      (some (3, [("m", .amap 4 [("x", .aint 1)])]))
      (some (5, [("m", .amap 6 [("y", .aint 2)])])) 20).2
      (by decide) (by decide) (by decide) (by decide)

/-- C7: the fallback policy of the deep clone — a slice kind not among the
enumerated typed slices is copied one level (a fresh backing container with
the identical, not recursively cloned, element values), and any other value
(scalar or opaque composite) is returned by identity, not cloned (same
value, same embedded identity, supply untouched). -/
theorem c7_clone_fallback_policy :
    (∀ (i : Nat) (es : List AVal) (s : Nat),
       acloneValue (.asliceOther i es) s = (.asliceOther s es, s + 1)) ∧
    (∀ (v : AVal) (s : Nat), identityCloned v = true → acloneValue v s = (v, s)) := by
  constructor
  · intro i es s
    simp [acloneValue]
  · intro v s h
    cases v <;> simp_all [identityCloned, acloneValue]

/-- C7 witness: the reflection fallback on a slice holding a map re-uses the
map (same id 7) inside a fresh slice container (id 10), and an opaque value
is returned untouched. -/
theorem c7_clone_fallback_policy_witness :
    acloneValue (.asliceOther 3 [.amap 7 [("x", .aint 1)]]) 10 =
      (.asliceOther 10 [.amap 7 [("x", .aint 1)]], 11) ∧
    acloneValue (.aptr 5) 10 = (.aptr 5, 10) := by
  constructor
  · exact c7_clone_fallback_policy.1 3 [.amap 7 [("x", .aint 1)]] 10
  · exact c7_clone_fallback_policy.2 (.aptr 5) 10 (by decide)
